import Mathlib

-- Shallow embedding of scopy.py (narimiran/scopy).
-- Python strings are modelled as Lean String (a list of code points); Python
-- sets of strings are modelled as lists whose membership is what matters;
-- Python functions that can raise are modelled with Option (none = exception).

-- str.lower() (ASCII; the repository only compares ASCII names and filters)
def pyLower (s : String) : String := ⟨s.data.map Char.toLower⟩

-- Python `pat in s` substring containment
def strContains (s pat : String) : Bool :=
  s.data.tails.any (fun t => pat.data.isPrefixOf t)

-- effective start/stop for a Python one-sided slice index (negative wraps)
def pyClampIndex (len : Nat) (i : Int) : Nat :=
  if i < 0 then len - (-i).toNat else i.toNat

-- s[i:] for a possibly negative i
def pySliceFrom (s : String) (i : Int) : String :=
  ⟨s.data.drop (pyClampIndex s.data.length i)⟩

-- s[:i] for a possibly negative i
def pySliceTo (s : String) (i : Int) : String :=
  ⟨s.data.take (pyClampIndex s.data.length i)⟩

-- s[n:] for a nonnegative n
def pySliceFromNat (s : String) (n : Nat) : String := ⟨s.data.drop n⟩

-- index of the last occurrence of c, as an Option
def rfindAux (c : Char) : List Char → Option Nat
  | [] => none
  | x :: xs =>
    match rfindAux c xs with
    | some i => some (i + 1)
    | none => if x = c then some 0 else none

-- s.rfind(c): highest index of c, or -1
def pyRfind (s : String) (c : Char) : Int :=
  match rfindAux c s.data with
  | some i => (i : Int)
  | none => -1

-- first index of c at position ≥ start, as an Option
def findFromAux (c : Char) : List Char → Nat → Option Nat
  | [], _ => none
  | x :: xs, 0 => if x = c then some 0 else (findFromAux c xs 0).map (· + 1)
  | _ :: xs, st + 1 => (findFromAux c xs st).map (· + 1)

-- s.find(c, start): first index of c at position ≥ start, or -1
def pyFind (s : String) (c : Char) (start : Nat) : Int :=
  match findFromAux c s.data start with
  | some i => (i : Int)
  | none => -1

-- Scopy._split: ext_index = file.rfind('.'); file[:ext_index], file[ext_index:]
def pySplit (file : String) : String × String :=
  (pySliceTo file (pyRfind file '.'), pySliceFrom file (pyRfind file '.'))

-- Scopy._set_extensions: prepend a dot unless the extension starts with one
-- (the Python set comprehension is modelled as a list)
def set_extensions (extensions : List String) : List String :=
  extensions.map (fun ext =>
    if ("." : String).data.isPrefixOf ext.data then ext else "." ++ ext)

-- whitespace stripped by int() (ASCII subset of Python's)
def isPySpace (c : Char) : Bool :=
  c = ' ' || c = '\t' || c = '\n' || c = '\r' || c = '\x0b' || c = '\x0c'

def stripWs (cs : List Char) : List Char :=
  ((cs.dropWhile isPySpace).reverse.dropWhile isPySpace).reverse

-- digit groups accepted by int(): digits with single underscores in between
mutual
def vdFirst : List Char → Bool
  | [] => false
  | c :: rest => c.isDigit && vdRest rest
def vdRest : List Char → Bool
  | [] => true
  | '_' :: rest => vdFirst rest
  | c :: rest => c.isDigit && vdRest rest
end

def digitsVal (cs : List Char) : Nat :=
  (cs.filter Char.isDigit).foldl (fun acc c => 10 * acc + (c.toNat - '0'.toNat)) 0

-- Python int(str): optional surrounding whitespace, optional sign, digits
-- (none models the ValueError raised on any other shape)
def pyInt (s : String) : Option Int :=
  match stripWs s.data with
  | '+' :: rest => if vdFirst rest then some ((digitsVal rest : Nat) : Int) else none
  | '-' :: rest => if vdFirst rest then some (-((digitsVal rest : Nat) : Int)) else none
  | cs => if vdFirst cs then some ((digitsVal cs : Nat) : Int) else none

-- parse_size inside _set_minsize; the Bool records whether the warning printed
def parse_size (size : String) (multi : Int) : Int × Bool :=
  match pyInt size with
  | some n => (multi * n, false)
  | none => (0, true)

-- the translate dict lookup with default 1 (argument is already lowercased)
def minsizeTranslate (c : Char) : Int :=
  if c = 'k' then 1024 else if c = 'm' then 1024 ^ 2 else if c = 'g' then 1024 ^ 3 else 1

-- Scopy._set_minsize; none models the IndexError raised on the empty string
def set_minsize (minsize : String) : Option (Int × Bool) :=
  match minsize.data.getLast? with
  | none => none
  | some last =>
    if last.isAlpha then
      some (parse_size (pySliceTo minsize (-1)) (minsizeTranslate last.toLower))
    else
      some (parse_size minsize 1)

-- a discovered file: the tuple (filename, ext, size, path)
structure FileRecord where
  filename : String
  ext : String
  size : Nat
  path : String
deriving DecidableEq

-- a validated sort key: one of 'n', 'e', 's', 'd' (argparse choices)
inductive SortKey where
  | n | e | s | d
deriving DecidableEq

-- the value x[translate[column]] extracted from the record tuple
inductive KeyVal where
  | str (s : String)
  | num (k : Nat)
deriving DecidableEq

def keyOf (sort_by : List SortKey) (r : FileRecord) : List KeyVal :=
  sort_by.map (fun k =>
    match k with
    | SortKey.n => KeyVal.str r.filename
    | SortKey.e => KeyVal.str r.ext
    | SortKey.s => KeyVal.num r.size
    | SortKey.d => KeyVal.str r.path)

-- Python string < : lexicographic by code point
def strLtB : List Char → List Char → Bool
  | [], [] => false
  | [], _ :: _ => true
  | _ :: _, [] => false
  | a :: as, b :: bs => if a < b then true else if a = b then strLtB as bs else false

-- comparison of key components; the cross-constructor cases never arise for
-- keys built from one sort_by list (Python would raise TypeError there), and
-- are given a fixed total extension
def kvLt : KeyVal → KeyVal → Bool
  | KeyVal.str a, KeyVal.str b => strLtB a.data b.data
  | KeyVal.num a, KeyVal.num b => decide (a < b)
  | KeyVal.str _, KeyVal.num _ => true
  | KeyVal.num _, KeyVal.str _ => false

-- Python list < : lexicographic, a strict prefix is smaller
def lexLt : List KeyVal → List KeyVal → Bool
  | [], [] => false
  | [], _ :: _ => true
  | _ :: _, [] => false
  | a :: as, b :: bs => if kvLt a b then true else if a = b then lexLt as bs else false

-- the total preorder realised by sorted(key=sort_order, reverse=descending):
-- ascending sorts by key ≤, reverse=True sorts by key ≥, both stably
def pyLeRecord (sort_by : List SortKey) (descending : Bool) (a b : FileRecord) : Bool :=
  if descending then ! lexLt (keyOf sort_by a) (keyOf sort_by b)
  else ! lexLt (keyOf sort_by b) (keyOf sort_by a)

-- Scopy.sort_results; Python's sorted is a stable sort, and a stable sort
-- with respect to a total preorder is unique, so mergeSort realises it
def sort_results (sort_by : List SortKey) (descending : Bool)
    (results : List FileRecord) : List FileRecord :=
  results.mergeSort (pyLeRecord sort_by descending)

-- the resolved configuration held by the Scopy object after __init__
structure ScopyCfg where
  directory : String
  ext : List String
  no_subs : Bool
  filters : List String
  ignore : List String
  minsize : Int
  raw : Bool
  sort_by : List SortKey
  descending : Bool
  verbose : Bool
  outfile : Option String

-- an in-memory directory tree: regular files (name, size) and subdirectories,
-- each list in the order the operating system enumerates the entries
inductive FSTree where
  | node (files : List (String × Nat)) (dirs : List (String × FSTree))

def FSTree.filesOf : FSTree → List (String × Nat)
  | FSTree.node files _ => files

def FSTree.dirsOf : FSTree → List (String × FSTree)
  | FSTree.node _ dirs => dirs

-- Scopy._satisfies_filters
def satisfies_filters (cfg : ScopyCfg) (filename ext : String) (filesize : Nat) : Bool :=
  (if cfg.filters.isEmpty then true
   else cfg.filters.any (fun filt => strContains (pyLower filename) (pyLower filt)))
  && cfg.ext.contains ext
  && decide (cfg.minsize ≤ (filesize : Int))

-- the loop of Scopy._search_directory over the regular files of a directory
-- (entries that are not regular files fail the isfile test and are skipped)
def searchFiles (cfg : ScopyCfg) (directory : String) : List (String × Nat) → List FileRecord
  | [] => []
  | (file, filesize) :: rest =>
    let fe := pySplit file
    if satisfies_filters cfg fe.1 fe.2 filesize then
      FileRecord.mk fe.1 fe.2 filesize directory :: searchFiles cfg directory rest
    else
      searchFiles cfg directory rest

-- Scopy._search_directory
def search_directory (cfg : ScopyCfg) (directory : String) (t : FSTree) : List FileRecord :=
  searchFiles cfg directory t.filesOf

-- list.remove(d) where d is a directory name: drop the first entry so named
def eraseByName (n : String) : List (String × FSTree) → List (String × FSTree)
  | [] => []
  | e :: es => if e.1 = n then es else e :: eraseByName n es

theorem eraseByName_length_le (n : String) (l : List (String × FSTree)) :
    (eraseByName n l).length ≤ l.length := by
  induction l with
  | nil => simp [eraseByName]
  | cons e es ih =>
    simp only [eraseByName]
    split
    · simp
    · simpa using ih

theorem eraseByName_sublist (n : String) (l : List (String × FSTree)) :
    (eraseByName n l).Sublist l := by
  induction l with
  | nil => simp [eraseByName]
  | cons e es ih =>
    simp only [eraseByName]
    split
    · exact (List.sublist_cons_self e es)
    · exact ih.cons₂ e

-- _ignore_directories: Python iterates `for d in dirs` by an internal index
-- while calling dirs.remove(d); i is that index over the mutating list
def ignoreDirsLoop (ignore : List String) (dirs : List (String × FSTree)) (i : Nat) :
    List (String × FSTree) :=
  if h : i < dirs.length then
    let d := (dirs.get ⟨i, h⟩).1
    if ignore.any (fun word => strContains (pyLower d) (pyLower word)) then
      ignoreDirsLoop ignore (eraseByName d dirs) (i + 1)
    else
      ignoreDirsLoop ignore dirs (i + 1)
  else
    dirs
termination_by dirs.length - i
decreasing_by
  · have hl := eraseByName_length_le (dirs.get ⟨i, h⟩).1 dirs
    omega
  · omega

-- `if self.ignore: dirs = _ignore_directories(dirs)` inside _search_all
def pruneDirs (cfg : ScopyCfg) (dirs : List (String × FSTree)) : List (String × FSTree) :=
  if cfg.ignore.isEmpty then dirs else ignoreDirsLoop cfg.ignore dirs 0

theorem ignoreDirsLoopSublistAux :
    ∀ (m : Nat) (ignore : List String) (dirs : List (String × FSTree)) (i : Nat),
      dirs.length - i ≤ m → (ignoreDirsLoop ignore dirs i).Sublist dirs := by
  intro m
  induction m with
  | zero =>
    intro ignore dirs i hm
    rw [ignoreDirsLoop]
    split
    next h => omega
    next h => exact List.Sublist.refl dirs
  | succ m ih =>
    intro ignore dirs i hm
    rw [ignoreDirsLoop]
    split
    next h =>
      dsimp only
      split
      next hc =>
        refine (ih ignore _ (i + 1) ?_).trans (eraseByName_sublist _ dirs)
        have hl := eraseByName_length_le (dirs.get ⟨i, h⟩).1 dirs
        omega
      next hc =>
        exact ih ignore dirs (i + 1) (by omega)
    next h => exact List.Sublist.refl dirs

theorem ignoreDirsLoop_sublist (ignore : List String) (dirs : List (String × FSTree)) (i : Nat) :
    (ignoreDirsLoop ignore dirs i).Sublist dirs :=
  ignoreDirsLoopSublistAux (dirs.length - i) ignore dirs i (Nat.le_refl _)

theorem pruneDirs_sublist (cfg : ScopyCfg) (dirs : List (String × FSTree)) :
    (pruneDirs cfg dirs).Sublist dirs := by
  rw [pruneDirs]
  split
  · exact List.Sublist.refl dirs
  · exact ignoreDirsLoop_sublist cfg.ignore dirs 0

theorem sizeOf_snd_lt_of_mem_dirs {files : List (String × Nat)}
    {dirs : List (String × FSTree)} {p : String × FSTree} (h : p ∈ dirs) :
    sizeOf p.2 < sizeOf (FSTree.node files dirs) := by
  have h1 := List.sizeOf_lt_of_mem h
  cases p with
  | mk a b =>
    simp only [FSTree.node.sizeOf_spec, Prod.mk.sizeOf_spec] at h1 ⊢
    omega

-- os.path.join for POSIX paths, as used with a directory and a child name
def pyJoin (d f : String) : String :=
  if d = "" then f
  else if d.data.getLast? = some '/' then d ++ f
  else d ++ "/" ++ f

-- Scopy._search_all: os.walk top-down; at each directory the dirs list is
-- pruned in place and then _search_directory collects that directory's files
def search_all (cfg : ScopyCfg) (dirpath : String) (t : FSTree) : List FileRecord :=
  match t with
  | FSTree.node files dirs =>
    searchFiles cfg dirpath files ++
      ((pruneDirs cfg dirs).attach.map
        (fun x => search_all cfg (pyJoin dirpath x.1.1) x.1.2)).flatten
termination_by sizeOf t
decreasing_by
  rename_i dirs
  exact sizeOf_snd_lt_of_mem_dirs ((pruneDirs_sublist cfg dirs).subset x.2)

-- Scopy.get_results: the external filesystem is an Option FSTree at the
-- configured root (none models a root that is not a valid directory); the
-- second component collects what the method prints to the console
def get_results (cfg : ScopyCfg) (fs : Option FSTree) :
    Option (List FileRecord) × List String :=
  match fs with
  | some t =>
    (some (if cfg.no_subs then search_directory cfg cfg.directory t
           else search_all cfg cfg.directory t), [])
  | none => (none, [cfg.directory ++ " is not a valid directory!"])

-- re.sub(r'[.$%_-]', ' ', filename): each filler symbol becomes a space
def subSymbols (s : String) : String :=
  ⟨s.data.map (fun c =>
    if c = '.' || c = '$' || c = '%' || c = '_' || c = '-' then ' ' else c)⟩

-- str.split() with no argument: split on whitespace runs, dropping empties
def pyWordsAux : List Char → List Char → List String
  | [], acc => if acc.isEmpty then [] else [⟨acc.reverse⟩]
  | c :: rest, acc =>
    if isPySpace c then
      if acc.isEmpty then pyWordsAux rest [] else ⟨acc.reverse⟩ :: pyWordsAux rest []
    else
      pyWordsAux rest (c :: acc)

def pyWords (s : String) : List String := pyWordsAux s.data []

-- str.title() (ASCII): uppercase a letter after a non-letter, lowercase after a letter
def pyTitleAux : Bool → List Char → List Char
  | _, [] => []
  | prevAlpha, c :: rest =>
    (if c.isAlpha then (if prevAlpha then c.toLower else c.toUpper) else c)
      :: pyTitleAux c.isAlpha rest

def pyTitle (s : String) : String := ⟨pyTitleAux false s.data⟩

-- Scopy._replace_symbols: ' '.join(re.sub(r'[.$%_-]', ' ', filename).split()).title()
def replace_symbols (filename : String) : String :=
  pyTitle (String.intercalate " " (pyWords (subSymbols filename)))

-- s[:n] for a nonnegative n
def pyTake (s : String) (n : Nat) : String := ⟨s.data.take n⟩

-- path.replace('\\', '/')
def pyReplaceBack (s : String) : String :=
  ⟨s.data.map (fun c => if c = '\\' then '/' else c)⟩

theorem findFromAux_some_bounds (c : Char) :
    ∀ (cs : List Char) (st i : Nat), findFromAux c cs st = some i → st ≤ i ∧ i < cs.length := by
  intro cs
  induction cs with
  | nil => intro st i h; simp [findFromAux] at h
  | cons x xs ih =>
    intro st i h
    match st with
    | 0 =>
      rw [findFromAux] at h
      split at h
      · simp only [Option.some.injEq] at h
        simp only [List.length_cons]
        omega
      · simp only [Option.map_eq_some'] at h
        obtain ⟨j, hj, hji⟩ := h
        have := ih 0 j hj
        simp only [List.length_cons]
        omega
    | st' + 1 =>
      rw [findFromAux] at h
      simp only [Option.map_eq_some'] at h
      obtain ⟨j, hj, hji⟩ := h
      have := ih st' j hj
      simp only [List.length_cons]
      omega

theorem strLengthMk (l : List Char) : (String.mk l).length = l.length := rfl

-- one step of the path-shrinking while-loop strictly shrinks the string
theorem dropSegmentsStepLt (rp : String) (h : 47 < rp.length) :
    (pySliceFrom rp (pyFind rp '/' 1)).length < rp.length := by
  have hlen : rp.length = rp.data.length := rfl
  rw [pySliceFrom, strLengthMk, List.length_drop, pyFind]
  cases hf : findFromAux '/' rp.data 1 with
  | none =>
    simp only [pyClampIndex]
    norm_num
    omega
  | some i =>
    dsimp only
    have hb := findFromAux_some_bounds '/' rp.data 1 i hf
    have hnn : ¬ ((i : Int) < 0) := by omega
    rw [pyClampIndex, if_neg hnn]
    omega

-- the while-loop in format_results._trimmed that drops leading path segments
def dropSegments (rp : String) : String :=
  if h : 47 < rp.length then dropSegments (pySliceFrom rp (pyFind rp '/' 1)) else rp
termination_by rp.length
decreasing_by
  exact dropSegmentsStepLt rp h

-- format_results._trimmed (MAX_WIDTH = 50, HOME_LENGTH = len(self.directory))
def trimmed (raw : Bool) (homeLength : Nat) (filename path : String) : String × String :=
  let relative_path := pyReplaceBack (pySliceFromNat path homeLength)
  let filename1 := if raw then filename else replace_symbols filename
  let filename2 := if 50 < filename1.length then pyTake filename1 47 ++ "..." else filename1
  let relative_path2 :=
    if 50 < relative_path.length then "..." ++ dropSegments relative_path else relative_path
  (filename2, relative_path2)

-- '{:>w}' and '{:<w}' padding
def pyRJust (s : String) (w : Nat) : String := ⟨List.replicate (w - s.length) ' '⟩ ++ s

def pyLJust (s : String) (w : Nat) : String := s ++ ⟨List.replicate (w - s.length) ' '⟩

-- rounding used by '{:3.0f}' on floats: round half to even
def roundHalfEven (q : ℚ) : Int :=
  let f := ⌊q⌋
  let r := q - (f : ℚ)
  if r < 1 / 2 then f
  else if 1 / 2 < r then f + 1
  else if f % 2 = 0 then f else f + 1

def pyFormat3f (q : ℚ) : String := pyRJust (toString (roundHalfEven q)) 3

-- the unit loop inside Scopy._convert_bytes. The Python division `size /= 1024`
-- is float division; it is modelled by exact rational division: every quotient
-- of an integer below 2^53 by a power of 1024 is an exact double, and for
-- integers at or above 2^50 the rounded quotient stays on the same side of the
-- 1024 threshold by monotonicity of rounding, so every branch taken agrees
def convert_bytes_go : ℚ → List String → Option String
  | _, [] => none
  | size, unit :: units =>
    if size < 1024 then some (pyFormat3f size ++ " " ++ pyRJust unit 2)
    else convert_bytes_go (size / 1024) units

-- Scopy._convert_bytes; none models the missing return after the loop
def convert_bytes (size : Nat) : Option String :=
  convert_bytes_go (size : ℚ) ["B", "KB", "MB", "GB", "TB"]

-- the COLUMNS template '{0:<{WIDTH}} {2:<8} {3:<8} {1}' with WIDTH = 50
def columnsRow (f0 f1 f2 f3 : String) : String :=
  pyLJust f0 50 ++ " " ++ pyLJust f2 8 ++ " " ++ pyLJust f3 8 ++ " " ++ f1

-- one row of the results table; none models the TypeError that str.format
-- raises when _convert_bytes returns None (a non-empty format spec on None)
def formatRow (cfg : ScopyCfg) (r : FileRecord) : Option String :=
  let tr := trimmed cfg.raw cfg.directory.length r.filename r.path
  (convert_bytes r.size).map (fun sizeStr => columnsRow tr.1 tr.2 r.ext sizeStr)

-- Scopy._get_header (os.path.abspath of the root is modelled by the stored,
-- already slash-normalized root path itself)
def get_header (cfg : ScopyCfg) (results : List FileRecord) : String :=
  let lines :=
    [("", ""), ("Scanned directory:", cfg.directory)]
    ++ (if cfg.ignore.isEmpty then []
        else [("Ignoring subdirectories containing:", String.intercalate ", " cfg.ignore)])
    ++ (if cfg.filters.isEmpty then []
        else [("Looking for files containing:", String.intercalate ", " cfg.filters)])
    ++ [("With extensions:", String.intercalate ", " cfg.ext),
        ("Found:", toString results.length ++ " files")]
  String.intercalate "\n" (lines.map (fun p => pyLJust p.1 36 ++ p.2))

-- Scopy.format_results
def format_results (cfg : ScopyCfg) (results : List FileRecord) : Option String :=
  (results.mapM (formatRow cfg)).map (fun rows =>
    let column_names := columnsRow "Filename:" "Relative path:" "Ext:" "Size:"
    let results_string := String.intercalate "\n" rows
    if cfg.verbose then
      String.intercalate "\n\n\n"
        [get_header cfg results, String.intercalate "\n" [column_names, results_string]]
    else
      String.intercalate "\n" ["", column_names, results_string])

-- what a run does to the outside world: console lines printed, and the file
-- written (path, contents) if any
structure RunOut where
  console : List String
  written : Option (String × String)
deriving DecidableEq

def scopyFooter : String := "\n\n\nCreated with Scopy. https://github.com/narimiran/scopy \n"

-- Scopy.output_results together with _write_to_file
def output_results (cfg : ScopyCfg) (contents : String) : RunOut :=
  match cfg.outfile with
  | some f => RunOut.mk ["Results saved in " ++ f] (some (f, contents ++ scopyFooter))
  | none => RunOut.mk [contents] none

-- Scopy.run; `if results:` is false both for None (invalid root) and for an
-- empty list, so in either case no later stage executes; none models an
-- uncaught exception escaping the run
def run (cfg : ScopyCfg) (fs : Option FSTree) : Option RunOut :=
  match get_results cfg fs with
  | (some results, msgs) =>
    if results.isEmpty then some (RunOut.mk msgs none)
    else
      match format_results cfg (sort_results cfg.sort_by cfg.descending results) with
      | some content =>
        let out := output_results cfg content
        some (RunOut.mk (msgs ++ out.console) out.written)
      | none => none
  | (none, msgs) => some (RunOut.mk msgs none)

theorem rfindAux_eq_none_iff (c : Char) : ∀ (l : List Char), rfindAux c l = none ↔ c ∉ l := by
  intro l
  induction l with
  | nil => simp [rfindAux]
  | cons x xs ih =>
    rw [rfindAux]
    cases hr : rfindAux c xs with
    | some i =>
      have hne : ¬(rfindAux c xs = none) := by simp [hr]
      have hx : c ∈ xs := by
        by_contra hc
        exact hne (ih.mpr hc)
      simp [hx, List.mem_cons]
    | none =>
      have hx : c ∉ xs := ih.mp hr
      by_cases hxc : x = c
      · simp [hxc]
      · have hcx : ¬ c = x := fun hh => hxc hh.symm
        simp [hxc, hx, hcx]

theorem rfindAux_some_spec (c : Char) :
    ∀ (l : List Char) (i : Nat), rfindAux c l = some i →
      ∃ h : i < l.length, l[i] = c ∧ ∀ j (hj : j < l.length), i < j → l[j] ≠ c := by
  intro l
  induction l with
  | nil => intro i h; simp [rfindAux] at h
  | cons x xs ih =>
    intro i h
    rw [rfindAux] at h
    cases hr : rfindAux c xs with
    | some i' =>
      rw [hr] at h
      simp only [Option.some.injEq] at h
      obtain ⟨hlt, hget, hafter⟩ := ih i' hr
      subst h
      refine ⟨by simp only [List.length_cons]; omega, ?_, ?_⟩
      · simpa using hget
      · intro j hj hij
        rcases j with _ | j'
        · omega
        · have hj' : j' < xs.length := by simp only [List.length_cons] at hj; omega
          have := hafter j' hj' (by omega)
          simpa using this
    | none =>
      rw [hr] at h
      dsimp only at h
      have hx : c ∉ xs := (rfindAux_eq_none_iff c xs).mp hr
      by_cases hxc : x = c
      · rw [if_pos hxc] at h
        simp only [Option.some.injEq] at h
        subst h
        refine ⟨by simp only [List.length_cons]; omega, by simpa using hxc, ?_⟩
        intro j hj hij
        rcases j with _ | j'
        · omega
        · have hj' : j' < xs.length := by simp only [List.length_cons] at hj; omega
          simp only [List.getElem_cons_succ]
          intro hc
          exact hx (hc ▸ List.getElem_mem hj')
      · rw [if_neg hxc] at h
        exact absurd h (by simp)

/-- C5: when the configured root path is not a valid directory, the run prints
only the diagnostic message, produces no report, writes no file (even when an
output file was requested in the configuration), and no later stage runs. -/
theorem invalid_directory_no_output (cfg : ScopyCfg) :
    run cfg none = some (RunOut.mk [cfg.directory ++ " is not a valid directory!"] none) := rfl

/-- C3 counterexample: for the dot-less filename "abc", _split returns
("ab", "c"): the extension is the last character only, not the entire
filename as the claim states. -/
theorem split_dotless_counterexample :
    ('.' ∉ ("abc" : String).data) ∧ pySplit "abc" = ("ab", "c") ∧ (pySplit "abc").2 ≠ "abc" := by
  refine ⟨by decide, by decide, by decide⟩

/-- C3 (amended): _split divides the filename at the last dot; for a filename
with no dot, rfind returns -1 and the slices file[:-1], file[-1:] make the
base the filename without its final character and the extension just the
final character (both empty when the filename is empty). -/
theorem split_last_dot (s : String) :
    ('.' ∈ s.data →
      ∃ (i : Nat) (h : i < s.data.length), s.data[i] = '.' ∧
        (∀ j (hj : j < s.data.length), i < j → s.data[j] ≠ '.') ∧
        (pySplit s).1.data = s.data.take i ∧ (pySplit s).2.data = s.data.drop i)
    ∧ ('.' ∉ s.data →
      (pySplit s).1.data = s.data.dropLast ∧
      (pySplit s).2.data = s.data.drop (s.data.length - 1)) := by
  constructor
  · intro hdot
    cases hr : rfindAux '.' s.data with
    | none => exact absurd ((rfindAux_eq_none_iff '.' s.data).mp hr) (by simpa using hdot)
    | some i =>
      obtain ⟨hlt, hget, hafter⟩ := rfindAux_some_spec '.' s.data i hr
      have hnn : ¬ ((i : Int) < 0) := by omega
      refine ⟨i, hlt, hget, hafter, ?_, ?_⟩
      · rw [pySplit]
        dsimp only
        rw [pyRfind, hr]
        dsimp only
        rw [pySliceTo, pyClampIndex, if_neg hnn]
        simp
      · rw [pySplit]
        dsimp only
        rw [pyRfind, hr]
        dsimp only
        rw [pySliceFrom, pyClampIndex, if_neg hnn]
        simp
  · intro hnot
    have hr : rfindAux '.' s.data = none := (rfindAux_eq_none_iff '.' s.data).mpr hnot
    have hclamp : pyClampIndex s.data.length (-1) = s.data.length - 1 := by
      rw [pyClampIndex]
      norm_num
    constructor
    · rw [pySplit]
      dsimp only
      rw [pyRfind, hr]
      dsimp only
      rw [pySliceTo, hclamp]
      simp [List.dropLast_eq_take]
    · rw [pySplit]
      dsimp only
      rw [pyRfind, hr]
      dsimp only
      rw [pySliceFrom, hclamp]

/-- C3 amended witness: the amended statement applied at "a.b" (a filename
with a dot) and at the dot-less "xy". -/
theorem split_last_dot_witness :
    (∃ (i : Nat) (h : i < ("a.b" : String).data.length), ("a.b" : String).data[i] = '.' ∧
        (∀ j (hj : j < ("a.b" : String).data.length), i < j → ("a.b" : String).data[j] ≠ '.') ∧
        (pySplit "a.b").1.data = ("a.b" : String).data.take i ∧
        (pySplit "a.b").2.data = ("a.b" : String).data.drop i)
    ∧ ((pySplit "xy").1.data = ("xy" : String).data.dropLast ∧
        (pySplit "xy").2.data = ("xy" : String).data.drop (("xy" : String).data.length - 1)) :=
  ⟨(split_last_dot "a.b").1 (by decide), (split_last_dot "xy").2 (by decide)⟩

theorem getLastPush (s : String) (c : Char) : (s.push c).data.getLast? = some c := by
  show (s.data ++ [c]).getLast? = some c
  exact List.getLast?_concat s.data

theorem sliceToPushNegOne (s : String) (c : Char) : pySliceTo (s.push c) (-1) = s := by
  rw [pySliceTo, pyClampIndex]
  norm_num

theorem minsizeTranslate_pos (c : Char) : 0 < minsizeTranslate c := by
  rw [minsizeTranslate]
  split_ifs <;> norm_num

theorem stripWs_subset (l : List Char) : ∀ c, c ∈ stripWs l → c ∈ l := by
  intro c hc
  simp only [stripWs, List.mem_reverse] at hc
  have hc2 : c ∈ (l.dropWhile isPySpace).reverse := (List.dropWhile_sublist _).subset hc
  rw [List.mem_reverse] at hc2
  exact (List.dropWhile_sublist _).subset hc2

theorem pyInt_nonneg (t : String) (hm : '-' ∉ t.data) (n : Int) (h : pyInt t = some n) :
    0 ≤ n := by
  rw [pyInt] at h
  split at h
  · split at h
    · simp only [Option.some.injEq] at h
      subst h
      exact Int.natCast_nonneg _
    · simp at h
  · next rest heq =>
    exact absurd (stripWs_subset t.data '-' (heq ▸ List.mem_cons_self '-' rest)) hm
  · split at h
    · simp only [Option.some.injEq] at h
      subst h
      exact Int.natCast_nonneg _
    · simp at h

/-- C6: minimum-size parsing: an alphabetic final character is a unit suffix
(k multiplies by 1024, m by 1024^2, g by 1024^3, any other letter by 1) and the
remaining prefix is parsed as an integer; a non-alphabetic final character
means the whole string is parsed as an integer; a parse failure yields 0 with
a warning; and "64k", "2m", "100", "abc" give 65536, 2097152, 100, 0+warning. -/
theorem set_minsize_spec :
    (∀ (pre : String) (n : Int), pyInt pre = some n →
        set_minsize (pre.push 'k') = some (1024 * n, false))
    ∧ (∀ (pre : String) (n : Int), pyInt pre = some n →
        set_minsize (pre.push 'm') = some (1024 ^ 2 * n, false))
    ∧ (∀ (pre : String) (n : Int), pyInt pre = some n →
        set_minsize (pre.push 'g') = some (1024 ^ 3 * n, false))
    ∧ (∀ (pre : String) (c : Char) (n : Int), c.isAlpha = true →
        c.toLower ≠ 'k' → c.toLower ≠ 'm' → c.toLower ≠ 'g' →
        pyInt pre = some n → set_minsize (pre.push c) = some (n, false))
    ∧ (∀ (pre : String) (c : Char), c.isAlpha = true →
        pyInt pre = none → set_minsize (pre.push c) = some (0, true))
    ∧ (∀ (s : String) (c : Char) (n : Int), c.isAlpha = false →
        pyInt (s.push c) = some n → set_minsize (s.push c) = some (n, false))
    ∧ (∀ (s : String) (c : Char), c.isAlpha = false →
        pyInt (s.push c) = none → set_minsize (s.push c) = some (0, true))
    ∧ set_minsize "64k" = some (65536, false)
    ∧ set_minsize "2m" = some (2097152, false)
    ∧ set_minsize "100" = some (100, false)
    ∧ set_minsize "abc" = some (0, true) := by
  have halpha : ∀ (pre : String) (c : Char), c.isAlpha = true →
      set_minsize (pre.push c) = some (parse_size pre (minsizeTranslate c.toLower)) := by
    intro pre c hc
    rw [set_minsize, getLastPush]
    dsimp only
    rw [if_pos hc, sliceToPushNegOne]
  have hnonalpha : ∀ (s : String) (c : Char), c.isAlpha = false →
      set_minsize (s.push c) = some (parse_size (s.push c) 1) := by
    intro s c hc
    rw [set_minsize, getLastPush]
    dsimp only
    rw [if_neg (by simp [hc])]
  refine ⟨?_, ?_, ?_, ?_, ?_, ?_, ?_, by decide, by decide, by decide, by decide⟩
  · intro pre n hn
    rw [halpha pre 'k' (by decide), parse_size, hn]
    dsimp only
    rw [show minsizeTranslate 'k'.toLower = (1024 : Int) from by decide]
  · intro pre n hn
    rw [halpha pre 'm' (by decide), parse_size, hn]
    dsimp only
    rw [show minsizeTranslate 'm'.toLower = ((1024 : Int) ^ 2) from by decide]
  · intro pre n hn
    rw [halpha pre 'g' (by decide), parse_size, hn]
    dsimp only
    rw [show minsizeTranslate 'g'.toLower = ((1024 : Int) ^ 3) from by decide]
  · intro pre c n hc hk hm hg hn
    rw [halpha pre c hc, parse_size, hn, minsizeTranslate, if_neg hk, if_neg hm, if_neg hg]
    dsimp only
    rw [one_mul]
  · intro pre c hc hn
    rw [halpha pre c hc, parse_size, hn]
  · intro s c n hc hn
    rw [hnonalpha s c hc, parse_size, hn]
    dsimp only
    rw [one_mul]
  · intro s c hc hn
    rw [hnonalpha s c hc, parse_size, hn]

/-- C6 witness: the suffix rule applied at "64" with suffix k, and the
no-suffix rule applied at "10" followed by '0'. -/
theorem set_minsize_spec_witness :
    set_minsize (("64" : String).push 'k') = some (1024 * 64, false)
    ∧ set_minsize (("10" : String).push '0') = some (100, false) :=
  ⟨set_minsize_spec.1 "64" 64 (by decide),
    (set_minsize_spec.2.2.2.2.2.1) "10" '0' 100 (by decide) (by decide)⟩

/-- C8 counterexample: the input "-5" is accepted by the parser (no warning)
and stores the negative threshold -5 in the configuration. -/
theorem set_minsize_negative_counterexample :
    set_minsize "-5" = some (-5, false) ∧ ¬ ((0 : Int) ≤ -5) := by decide

/-- C8 (amended): for every accepted minimum-size string with no minus sign,
the stored threshold is ≥ 0; a negative threshold can only come from an input
whose numeric part carries a minus sign (such as "-5"). -/
theorem set_minsize_nonneg_amended (s : String) (v : Int) (w : Bool)
    (hminus : '-' ∉ s.data) (h : set_minsize s = some (v, w)) : 0 ≤ v := by
  rw [set_minsize] at h
  split at h
  · simp at h
  · next last hlast =>
    have hsub : ∀ c, c ∈ (pySliceTo s (-1)).data → c ∈ s.data := by
      intro c hc
      rw [pySliceTo] at hc
      exact List.take_subset _ _ hc
    split at h
    · simp only [Option.some.injEq] at h
      rw [parse_size] at h
      cases hp : pyInt (pySliceTo s (-1)) with
      | some n =>
        rw [hp] at h
        dsimp only at h
        have hn : 0 ≤ n := by
          refine pyInt_nonneg _ (fun hmem => hminus (hsub '-' hmem)) n hp
        have hv : v = minsizeTranslate last.toLower * n := (Prod.mk.injEq _ _ _ _ ▸ h).1.symm
        rw [hv]
        exact mul_nonneg (le_of_lt (minsizeTranslate_pos _)) hn
      | none =>
        rw [hp] at h
        dsimp only at h
        have hv : v = 0 := (Prod.mk.injEq _ _ _ _ ▸ h).1.symm
        omega
    · simp only [Option.some.injEq] at h
      rw [parse_size] at h
      cases hp : pyInt s with
      | some n =>
        rw [hp] at h
        dsimp only at h
        have hn : 0 ≤ n := pyInt_nonneg s hminus n hp
        have hv : v = 1 * n := (Prod.mk.injEq _ _ _ _ ▸ h).1.symm
        omega
      | none =>
        rw [hp] at h
        dsimp only at h
        have hv : v = 0 := (Prod.mk.injEq _ _ _ _ ▸ h).1.symm
        omega

/-- C8 amended witness: the amended bound applied at the concrete input "64k". -/
theorem set_minsize_nonneg_amended_witness : (0 : Int) ≤ 65536 :=
  set_minsize_nonneg_amended "64k" 65536 false (by decide) (by decide)

theorem dropSegmentsLenAux :
    ∀ (m : Nat) (rp : String), rp.length ≤ m → (dropSegments rp).length ≤ 47 := by
  intro m
  induction m with
  | zero =>
    intro rp h
    rw [dropSegments]
    split
    next hh => omega
    next hh => omega
  | succ m ih =>
    intro rp h
    rw [dropSegments]
    split
    next hh =>
      refine ih _ ?_
      have := dropSegmentsStepLt rp hh
      omega
    next hh => omega

-- the while-loop always exits with at most 47 characters left
theorem dropSegments_length_le (rp : String) : (dropSegments rp).length ≤ 47 :=
  dropSegmentsLenAux rp.length rp (Nat.le_refl _)

/-- C7: for every record, neither the display-name field nor the
relative-path field produced by format_results._trimmed exceeds 50
characters: over-long names become 47 characters plus '...', and over-long
paths lose leftmost segments until at most 47 characters remain before '...'
is prepended. -/
theorem trimmed_fields_within_width (raw : Bool) (homeLength : Nat) (filename path : String) :
    (trimmed raw homeLength filename path).1.length ≤ 50 ∧
    (trimmed raw homeLength filename path).2.length ≤ 50 := by
  rw [trimmed]
  have h3 : ("..." : String).length = 3 := by decide
  constructor
  · dsimp only
    generalize (if raw then filename else replace_symbols filename) = f1
    split
    next h =>
      rw [String.length_append, h3, pyTake, strLengthMk, List.length_take]
      omega
    next h => omega
  · dsimp only
    split
    next h =>
      rw [String.length_append, h3]
      have := dropSegments_length_le (pyReplaceBack (pySliceFromNat path homeLength))
      omega
    next h => omega

theorem convert_go_none_iff (us : List String) :
    ∀ (q : ℚ), 1 ≤ q → (convert_bytes_go q us = none ↔ (1024 : ℚ) ^ us.length ≤ q) := by
  induction us with
  | nil =>
    intro q hq
    rw [convert_bytes_go]
    simp only [List.length_nil, pow_zero]
    constructor
    · intro _
      exact hq
    · intro _
      first
      | rfl
      | trivial
  | cons u us ih =>
    intro q hq
    rw [convert_bytes_go]
    split
    next h =>
      simp only [List.length_cons]
      constructor
      · intro hc
        exact absurd hc (by simp)
      · intro hc
        exfalso
        have hge : (1024 : ℚ) ≤ 1024 ^ (us.length + 1) :=
          le_self_pow (by norm_num) (by omega)
        linarith
    next h =>
      have hq' : (1 : ℚ) ≤ q / 1024 := by
        rw [le_div_iff (by norm_num : (0 : ℚ) < 1024)]
        linarith [not_lt.mp h]
      rw [ih (q / 1024) hq']
      rw [le_div_iff (by norm_num : (0 : ℚ) < 1024)]
      rw [List.length_cons, pow_succ]

theorem convert_bytes_eq_none_iff (n : Nat) : convert_bytes n = none ↔ 1024 ^ 5 ≤ n := by
  have hpow : (1024 : Nat) ^ 5 = 1125899906842624 := by norm_num
  rcases Nat.eq_zero_or_pos n with h0 | hpos
  · subst h0
    rw [convert_bytes, convert_bytes_go, if_pos (by norm_num : ((0 : Nat) : ℚ) < 1024)]
    constructor
    · intro hc
      exact absurd hc (by simp)
    · intro hc
      rw [hpow] at hc
      omega
  · have h1 : (1 : ℚ) ≤ (n : ℚ) := by
      have h2 : 1 ≤ n := hpos
      exact_mod_cast h2
    rw [convert_bytes, convert_go_none_iff _ _ h1]
    have hlen : (["B", "KB", "MB", "GB", "TB"] : List String).length = 5 := rfl
    rw [hlen]
    norm_cast

theorem format_results_none_of_big (cfg : ScopyCfg) (name ext path : String) (n : Nat)
    (h : 1024 ^ 5 ≤ n) :
    format_results cfg [FileRecord.mk name ext n path] = none := by
  have hrow : formatRow cfg (FileRecord.mk name ext n path) = none := by
    rw [formatRow]
    dsimp only
    rw [(convert_bytes_eq_none_iff n).mpr h]
    rfl
  rw [format_results]
  simp [List.mapM.loop, hrow]

/-- C10 counterexample: at exactly 1024^5 bytes _convert_bytes returns None,
and format_results then produces no report string at all for such a record --
str.format raises a TypeError on None with a non-empty format spec, so the
None is never rendered literally in the size column. -/
theorem convert_bytes_none_not_rendered :
    convert_bytes (1024 ^ 5) = none ∧
    format_results
        (ScopyCfg.mk "d" [".pdf"] false [] [] 0 false [SortKey.n] false false none)
        [FileRecord.mk "x" ".pdf" (1024 ^ 5) "d"] = none :=
  ⟨(convert_bytes_eq_none_iff (1024 ^ 5)).mpr (Nat.le_refl _),
    format_results_none_of_big _ "x" ".pdf" "d" (1024 ^ 5) (Nat.le_refl _)⟩

/-- C10 (amended): _convert_bytes returns a formatted size string exactly for
byte counts strictly below 1024^5; for every size at or above 1024^5 the unit
loop is exhausted and None is returned, which makes format_results fail on
the size column (no report string is produced) instead of rendering the None
literally. -/
theorem convert_bytes_amended :
    (∀ n : Nat, convert_bytes n = none ↔ 1024 ^ 5 ≤ n)
    ∧ (∀ (cfg : ScopyCfg) (name ext path : String) (k : Nat),
        format_results cfg [FileRecord.mk name ext (1024 ^ 5 + k) path] = none) :=
  ⟨convert_bytes_eq_none_iff,
    fun cfg name ext path k =>
      format_results_none_of_big cfg name ext path (1024 ^ 5 + k) (Nat.le_add_right _ _)⟩

theorem strLtB_irrefl (l : List Char) : strLtB l l = false := by
  induction l with
  | nil => rfl
  | cons a as ih =>
    rw [strLtB, if_neg (lt_irrefl a), if_pos rfl]
    exact ih

theorem strLtB_asymm : ∀ (x y : List Char), strLtB x y = true → strLtB y x = false := by
  intro x
  induction x with
  | nil =>
    intro y h
    cases y with
    | nil => simpa [strLtB] using h
    | cons b bs => simp [strLtB]
  | cons a as ih =>
    intro y h
    cases y with
    | nil => simp [strLtB] at h
    | cons b bs =>
      rw [strLtB] at h ⊢
      by_cases hab : a < b
      · rw [if_neg (lt_asymm hab), if_neg (ne_of_gt hab)]
      · rw [if_neg hab] at h
        by_cases heq : a = b
        · rw [if_pos heq] at h
          subst heq
          rw [if_neg hab, if_pos rfl]
          exact ih bs h
        · rw [if_neg heq] at h
          exact absurd h (by simp)

theorem strLtB_trans : ∀ (x y z : List Char),
    strLtB x y = true → strLtB y z = true → strLtB x z = true := by
  intro x
  induction x with
  | nil =>
    intro y z hxy hyz
    cases z with
    | nil =>
      cases y with
      | nil => simpa [strLtB] using hxy
      | cons b bs => simpa [strLtB] using hyz
    | cons c cs => simp [strLtB]
  | cons a as ih =>
    intro y z hxy hyz
    cases y with
    | nil => simp [strLtB] at hxy
    | cons b bs =>
      cases z with
      | nil => simp [strLtB] at hyz
      | cons c cs =>
        rw [strLtB] at hxy hyz ⊢
        by_cases hab : a < b
        · by_cases hbc : b < c
          · rw [if_pos (lt_trans hab hbc)]
          · rw [if_neg hbc] at hyz
            by_cases hbceq : b = c
            · subst hbceq
              rw [if_pos hab]
            · rw [if_neg hbceq] at hyz
              exact absurd hyz (by simp)
        · rw [if_neg hab] at hxy
          by_cases habeq : a = b
          · subst habeq
            rw [if_pos rfl] at hxy
            by_cases hac : a < c
            · rw [if_pos hac]
            · rw [if_neg hac] at hyz
              by_cases haceq : a = c
              · subst haceq
                rw [if_pos rfl] at hyz
                rw [if_neg (lt_irrefl a), if_pos rfl]
                exact ih bs cs hxy hyz
              · rw [if_neg haceq] at hyz
                exact absurd hyz (by simp)
          · rw [if_neg habeq] at hxy
            exact absurd hxy (by simp)

theorem strLtB_connex : ∀ (x y : List Char),
    strLtB x y = false → strLtB y x = false → x = y := by
  intro x
  induction x with
  | nil =>
    intro y hxy _
    cases y with
    | nil => rfl
    | cons b bs => simp [strLtB] at hxy
  | cons a as ih =>
    intro y hxy hyx
    cases y with
    | nil => simp [strLtB] at hyx
    | cons b bs =>
      rw [strLtB] at hxy hyx
      by_cases hab : a < b
      · rw [if_pos hab] at hxy
        exact absurd hxy (by simp)
      · by_cases hba : b < a
        · rw [if_pos hba] at hyx
          exact absurd hyx (by simp)
        · have heq : a = b := le_antisymm (not_lt.mp hba) (not_lt.mp hab)
          subst heq
          rw [if_neg hab, if_pos rfl] at hxy hyx
          rw [ih bs hxy hyx]

theorem kvLt_irrefl (x : KeyVal) : kvLt x x = false := by
  cases x with
  | str a => exact strLtB_irrefl a.data
  | num a => simp [kvLt]

theorem kvLt_asymm : ∀ (x y : KeyVal), kvLt x y = true → kvLt y x = false := by
  intro x y h
  cases x with
  | str a =>
    cases y with
    | str b => exact strLtB_asymm a.data b.data h
    | num k => rfl
  | num a =>
    cases y with
    | str b => exact absurd h (by simp [kvLt])
    | num b =>
      simp only [kvLt, decide_eq_true_eq] at h
      simp only [kvLt, decide_eq_false_iff_not]
      omega

theorem kvLt_trans : ∀ (x y z : KeyVal),
    kvLt x y = true → kvLt y z = true → kvLt x z = true := by
  intro x y z hxy hyz
  cases x <;> cases y <;> cases z <;> simp [kvLt] at hxy hyz ⊢ <;>
    first
    | omega
    | exact strLtB_trans _ _ _ hxy hyz

theorem kvLt_connex : ∀ (x y : KeyVal),
    kvLt x y = false → kvLt y x = false → x = y := by
  intro x y hxy hyx
  cases x with
  | str a =>
    cases y with
    | str b =>
      have hd : a.data = b.data := strLtB_connex a.data b.data hxy hyx
      have : a = b := by
        cases a
        cases b
        exact congrArg String.mk hd
      rw [this]
    | num k => exact absurd hxy (by simp [kvLt])
  | num a =>
    cases y with
    | str b => exact absurd hyx (by simp [kvLt])
    | num b =>
      simp only [kvLt, decide_eq_false_iff_not] at hxy hyx
      have : a = b := by omega
      rw [this]

theorem lexLt_irrefl (x : List KeyVal) : lexLt x x = false := by
  induction x with
  | nil => rfl
  | cons a as ih =>
    rw [lexLt, if_neg (by simp [kvLt_irrefl]), if_pos rfl]
    exact ih

theorem lexLt_asymm : ∀ (x y : List KeyVal), lexLt x y = true → lexLt y x = false := by
  intro x
  induction x with
  | nil =>
    intro y h
    cases y with
    | nil => simpa [lexLt] using h
    | cons b bs => simp [lexLt]
  | cons a as ih =>
    intro y h
    cases y with
    | nil => simp [lexLt] at h
    | cons b bs =>
      rw [lexLt] at h ⊢
      by_cases hab : kvLt a b = true
      · have hba : ¬ (b = a) := by
          intro hba
          subst hba
          rw [kvLt_irrefl b] at hab
          exact absurd hab (by simp)
        rw [if_neg (by simp [kvLt_asymm a b hab]), if_neg hba]
      · rw [if_neg hab] at h
        by_cases heq : a = b
        · rw [if_pos heq] at h
          subst heq
          rw [if_neg hab, if_pos rfl]
          exact ih bs h
        · rw [if_neg heq] at h
          exact absurd h (by simp)

theorem lexLt_trans : ∀ (x y z : List KeyVal),
    lexLt x y = true → lexLt y z = true → lexLt x z = true := by
  intro x
  induction x with
  | nil =>
    intro y z hxy hyz
    cases z with
    | nil =>
      cases y with
      | nil => simpa [lexLt] using hxy
      | cons b bs => simpa [lexLt] using hyz
    | cons c cs => simp [lexLt]
  | cons a as ih =>
    intro y z hxy hyz
    cases y with
    | nil => simp [lexLt] at hxy
    | cons b bs =>
      cases z with
      | nil => simp [lexLt] at hyz
      | cons c cs =>
        rw [lexLt] at hxy hyz ⊢
        by_cases hab : kvLt a b = true
        · by_cases hbc : kvLt b c = true
          · rw [if_pos (kvLt_trans a b c hab hbc)]
          · rw [if_neg hbc] at hyz
            by_cases hbceq : b = c
            · subst hbceq
              rw [if_pos hab]
            · rw [if_neg hbceq] at hyz
              exact absurd hyz (by simp)
        · rw [if_neg hab] at hxy
          by_cases habeq : a = b
          · subst habeq
            rw [if_pos rfl] at hxy
            by_cases hac : kvLt a c = true
            · rw [if_pos hac]
            · rw [if_neg hac] at hyz
              by_cases haceq : a = c
              · subst haceq
                rw [if_pos rfl] at hyz
                rw [if_neg (by simp [kvLt_irrefl]), if_pos rfl]
                exact ih bs cs hxy hyz
              · rw [if_neg haceq] at hyz
                exact absurd hyz (by simp)
          · rw [if_neg habeq] at hxy
            exact absurd hxy (by simp)

theorem lexLt_connex : ∀ (x y : List KeyVal),
    lexLt x y = false → lexLt y x = false → x = y := by
  intro x
  induction x with
  | nil =>
    intro y hxy _
    cases y with
    | nil => rfl
    | cons b bs => simp [lexLt] at hxy
  | cons a as ih =>
    intro y hxy hyx
    cases y with
    | nil => simp [lexLt] at hyx
    | cons b bs =>
      rw [lexLt] at hxy hyx
      by_cases hab : kvLt a b = true
      · rw [if_pos hab] at hxy
        exact absurd hxy (by simp)
      · by_cases hba : kvLt b a = true
        · rw [if_pos hba] at hyx
          exact absurd hyx (by simp)
        · have heq : a = b :=
            kvLt_connex a b (by simpa using hab) (by simpa using hba)
          subst heq
          rw [if_neg hab, if_pos rfl] at hxy hyx
          rw [ih bs hxy hyx]

theorem lexLt_neg_trans (x y z : List KeyVal)
    (h1 : lexLt y x = false) (h2 : lexLt z y = false) : lexLt z x = false := by
  by_contra h3
  rw [Bool.not_eq_false] at h3
  by_cases h4 : lexLt x y = true
  · have h5 := lexLt_trans z x y h3 h4
    rw [h5] at h2
    exact absurd h2 (by simp)
  · have hxy : x = y := lexLt_connex x y (by simpa using h4) h1
    subst hxy
    rw [h3] at h2
    exact absurd h2 (by simp)

theorem pyLeRecord_trans (sort_by : List SortKey) (descending : Bool) :
    ∀ x y z : FileRecord, pyLeRecord sort_by descending x y = true →
      pyLeRecord sort_by descending y z = true → pyLeRecord sort_by descending x z = true := by
  intro x y z hxy hyz
  cases descending with
  | false =>
    simp only [pyLeRecord, Bool.false_eq_true, if_false, Bool.not_eq_true'] at hxy hyz ⊢
    exact lexLt_neg_trans _ _ _ hxy hyz
  | true =>
    simp only [pyLeRecord, if_true, Bool.not_eq_true'] at hxy hyz ⊢
    exact lexLt_neg_trans _ _ _ hyz hxy

theorem pyLeRecord_total (sort_by : List SortKey) (descending : Bool) :
    ∀ x y : FileRecord,
      (pyLeRecord sort_by descending x y || pyLeRecord sort_by descending y x) = true := by
  intro x y
  cases descending with
  | false =>
    simp only [pyLeRecord, Bool.false_eq_true, if_false]
    cases h : lexLt (keyOf sort_by y) (keyOf sort_by x) with
    | false => simp
    | true => simp [lexLt_asymm _ _ h]
  | true =>
    simp only [pyLeRecord, if_true]
    cases h : lexLt (keyOf sort_by x) (keyOf sort_by y) with
    | false => simp
    | true => simp [lexLt_asymm _ _ h]

/-- C4: sort_results returns a permutation of its input ordered
lexicographically by the key sequence (first key primary, later keys break
ties; case-sensitive code-point order for name/extension/directory, numeric
order for size); the descending flag reverses the whole composite ordering,
not each key; and records fully equal on all provided keys keep their
relative input order. -/
theorem sort_results_spec (sort_by : List SortKey) (descending : Bool) (l : List FileRecord) :
    List.Perm (sort_results sort_by descending l) l
    ∧ (sort_results sort_by descending l).Pairwise (fun a b =>
        if descending then lexLt (keyOf sort_by a) (keyOf sort_by b) = false
        else lexLt (keyOf sort_by b) (keyOf sort_by a) = false)
    ∧ (∀ a b : FileRecord, keyOf sort_by a = keyOf sort_by b →
        List.Sublist [a, b] l → List.Sublist [a, b] (sort_results sort_by descending l)) := by
  refine ⟨List.mergeSort_perm l _, ?_, ?_⟩
  · have hs := List.sorted_mergeSort (pyLeRecord_trans sort_by descending)
      (pyLeRecord_total sort_by descending) l
    refine hs.imp ?_
    intro a b hab
    cases descending with
    | false =>
      simp only [pyLeRecord, Bool.false_eq_true, if_false, Bool.not_eq_true'] at hab
      simpa using hab
    | true =>
      simp only [pyLeRecord, if_true, Bool.not_eq_true'] at hab
      simpa using hab
  · intro a b hk hsub
    refine List.pair_sublist_mergeSort (pyLeRecord_trans sort_by descending)
      (pyLeRecord_total sort_by descending) ?_ hsub
    cases descending with
    | false =>
      simp only [pyLeRecord, Bool.false_eq_true, if_false, Bool.not_eq_true', hk]
      exact lexLt_irrefl _
    | true =>
      simp only [pyLeRecord, if_true, Bool.not_eq_true', hk]
      exact lexLt_irrefl _

/-- C4 witness: stability applied to two records that agree on the sort key
(name) but differ elsewhere, inside a concrete two-element list. -/
theorem sort_results_spec_witness :
    List.Sublist
      [FileRecord.mk "a" ".x" 1 "p", FileRecord.mk "a" ".y" 2 "q"]
      (sort_results [SortKey.n] false
        [FileRecord.mk "a" ".x" 1 "p", FileRecord.mk "a" ".y" 2 "q"]) :=
  (sort_results_spec [SortKey.n] false
      [FileRecord.mk "a" ".x" 1 "p", FileRecord.mk "a" ".y" 2 "q"]).2.2
    (FileRecord.mk "a" ".x" 1 "p") (FileRecord.mk "a" ".y" 2 "q")
    (by decide) (List.Sublist.refl _)

/-- C9: sorting is idempotent: applying sort_results to its own output with
the same keys and flag returns that output unchanged. -/
theorem sort_results_idempotent (sort_by : List SortKey) (descending : Bool)
    (l : List FileRecord) :
    sort_results sort_by descending (sort_results sort_by descending l) =
      sort_results sort_by descending l :=
  List.mergeSort_of_sorted
    (List.sorted_mergeSort (pyLeRecord_trans sort_by descending)
      (pyLeRecord_total sort_by descending) l)

theorem satisfies_filters_spec (cfg : ScopyCfg) (fn ext : String) (sz : Nat)
    (h : satisfies_filters cfg fn ext sz = true) :
    ext ∈ cfg.ext ∧ cfg.minsize ≤ (sz : Int) ∧
      (cfg.filters ≠ [] →
        ∃ filt ∈ cfg.filters, strContains (pyLower fn) (pyLower filt) = true) := by
  rw [satisfies_filters] at h
  simp only [Bool.and_eq_true, decide_eq_true_eq] at h
  obtain ⟨⟨hfile, hext⟩, hsize⟩ := h
  refine ⟨by simpa using hext, hsize, ?_⟩
  intro hne
  rw [if_neg (by simpa [List.isEmpty_iff] using hne)] at hfile
  simpa using hfile

theorem mem_searchFiles (cfg : ScopyCfg) (dir : String) :
    ∀ (files : List (String × Nat)) (r : FileRecord), r ∈ searchFiles cfg dir files →
      satisfies_filters cfg r.filename r.ext r.size = true ∧ r.path = dir := by
  intro files
  induction files with
  | nil =>
    intro r h
    simp [searchFiles] at h
  | cons f rest ih =>
    obtain ⟨file, fsize⟩ := f
    intro r h
    rw [searchFiles] at h
    split at h
    next hc =>
      rcases List.mem_cons.mp h with heq | hmem
      · subst heq
        exact ⟨hc, rfl⟩
      · exact ih r hmem
    next hc => exact ih r h

theorem mem_search_all (cfg : ScopyCfg) (dirpath : String) (t : FSTree) (r : FileRecord)
    (h : r ∈ search_all cfg dirpath t) :
    satisfies_filters cfg r.filename r.ext r.size = true := by
  match t with
  | FSTree.node files dirs =>
    rw [search_all] at h
    rcases List.mem_append.mp h with h1 | h2
    · exact (mem_searchFiles cfg dirpath files r h1).1
    · rw [List.mem_flatten] at h2
      obtain ⟨lr, hlr, hrl⟩ := h2
      rw [List.mem_map] at hlr
      obtain ⟨x, hx, rfl⟩ := hlr
      exact mem_search_all cfg (pyJoin dirpath x.1.1) x.1.2 r hrl
termination_by sizeOf t
decreasing_by
  exact sizeOf_snd_lt_of_mem_dirs ((pruneDirs_sublist cfg dirs).subset x.2)

/-- C1: every FileRecord produced by discovery (get_results, in both the
current-directory-only and the recursive mode) passes all three filters: its
extension belongs to the normalized accepted extension set, its size meets
the minimum threshold, and, when name filters are present, some filter is a
case-insensitive substring of the base name. -/
theorem discovery_satisfies_filters (cfg : ScopyCfg) (fs : Option FSTree)
    (rawExts : List String) (hext : cfg.ext = set_extensions rawExts)
    (rs : List FileRecord) (r : FileRecord)
    (h1 : (get_results cfg fs).1 = some rs) (h2 : r ∈ rs) :
    r.ext ∈ set_extensions rawExts ∧ cfg.minsize ≤ (r.size : Int) ∧
      (cfg.filters ≠ [] →
        ∃ filt ∈ cfg.filters, strContains (pyLower r.filename) (pyLower filt) = true) := by
  cases fs with
  | none => simp [get_results] at h1
  | some t =>
    rw [get_results] at h1
    dsimp only at h1
    rw [Option.some.injEq] at h1
    subst h1
    have hsat : satisfies_filters cfg r.filename r.ext r.size = true := by
      by_cases hns : cfg.no_subs = true
      · rw [if_pos hns] at h2
        exact (mem_searchFiles cfg cfg.directory t.filesOf r
          (by simpa [search_directory] using h2)).1
      · rw [if_neg hns] at h2
        exact mem_search_all cfg cfg.directory t r h2
    obtain ⟨he, hs, hf⟩ := satisfies_filters_spec cfg r.filename r.ext r.size hsat
    exact ⟨hext ▸ he, hs, hf⟩

/-- C1 witness: a current-directory scan of a root holding my.book.pdf (2048
bytes) with extension set from raw list pdf, filter book and minimum size 10
yields a record satisfying all three filter conditions. -/
theorem discovery_satisfies_filters_witness :
    (FileRecord.mk "my.book" ".pdf" 2048 "root").ext ∈ set_extensions ["pdf"]
    ∧ (ScopyCfg.mk "root" (set_extensions ["pdf"]) true ["book"] [] 10 false
          [SortKey.n] false false none).minsize
        ≤ ((FileRecord.mk "my.book" ".pdf" 2048 "root").size : Int)
    ∧ ((ScopyCfg.mk "root" (set_extensions ["pdf"]) true ["book"] [] 10 false
          [SortKey.n] false false none).filters ≠ [] →
        ∃ filt ∈ (ScopyCfg.mk "root" (set_extensions ["pdf"]) true ["book"] [] 10 false
          [SortKey.n] false false none).filters,
          strContains (pyLower (FileRecord.mk "my.book" ".pdf" 2048 "root").filename)
            (pyLower filt) = true) :=
  discovery_satisfies_filters
    (ScopyCfg.mk "root" (set_extensions ["pdf"]) true ["book"] [] 10 false
      [SortKey.n] false false none)
    (some (FSTree.node [("my.book.pdf", 2048)] []))
    ["pdf"] rfl
    [FileRecord.mk "my.book" ".pdf" 2048 "root"]
    (FileRecord.mk "my.book" ".pdf" 2048 "root")
    (by decide) (by decide)

/-- C2 (code-bug evidence): with ignore list ["draft"] and consecutive sibling
directories "adraft" and "bdraft", _ignore_directories removes "adraft" but
the for-loop over the mutating list then skips "bdraft", so the scan descends
into "bdraft" and reports its file -- although "bdraft" contains the ignore
substring "draft" and the spec requires it and its contents to be pruned. -/
theorem ignore_skips_consecutive_match :
    search_all
      (ScopyCfg.mk "root" [".pdf"] false [] ["draft"] 0 false [SortKey.n] false false none)
      "root"
      (FSTree.node []
        [("adraft", FSTree.node [("x.pdf", 10)] []),
         ("bdraft", FSTree.node [("y.pdf", 10)] [])])
      = [FileRecord.mk "y" ".pdf" 10 "root/bdraft"]
    ∧ strContains (pyLower "bdraft") (pyLower "draft") = true := by
  constructor
  · have hloop : ignoreDirsLoop ["draft"]
        [("adraft", FSTree.node [("x.pdf", 10)] []),
         ("bdraft", FSTree.node [("y.pdf", 10)] [])] 0
        = [("bdraft", FSTree.node [("y.pdf", 10)] [])] := by
      rw [ignoreDirsLoop, dif_pos (by decide)]
      simp only [List.get_cons_zero]
      rw [if_pos (by decide)]
      show ignoreDirsLoop ["draft"]
          (eraseByName "adraft"
            [("adraft", FSTree.node [("x.pdf", 10)] []),
             ("bdraft", FSTree.node [("y.pdf", 10)] [])]) 1
          = [("bdraft", FSTree.node [("y.pdf", 10)] [])]
      rw [eraseByName, if_pos (by decide)]
      rw [ignoreDirsLoop, dif_neg (by decide)]
    have hinner : search_all
        (ScopyCfg.mk "root" [".pdf"] false [] ["draft"] 0 false [SortKey.n] false false none)
        "root/bdraft" (FSTree.node [("y.pdf", 10)] [])
        = [FileRecord.mk "y" ".pdf" 10 "root/bdraft"] := by
      rw [search_all]
      rw [pruneDirs, if_neg (by decide), ignoreDirsLoop, dif_neg (by decide)]
      simp only [List.attach_nil, List.map_nil, List.flatten_nil, List.append_nil]
      decide
    rw [search_all]
    rw [pruneDirs, if_neg (by decide), hloop]
    simp only [List.attach, List.attachWith, List.pmap, List.map_cons, List.map_nil,
      List.flatten_cons, List.flatten_nil, List.append_nil, List.nil_append]
    rw [show pyJoin "root" "bdraft" = "root/bdraft" from by decide]
    rw [hinner]
    rfl
  · decide
